import Mathlib

/-!
Verification of the geometry/numerics kernel of the plotter_web repository.

The JavaScript number type is modelled by exact rationals (`ℚ`): every
arithmetic operation that occurs in the verified code paths is exact, and
numeric literals of the source (`1e-5`, `Number.EPSILON = 2⁻⁵²`, …) denote
the corresponding rationals.  Operations that `throw` in the source
(`Matrix2.inverse`, and functions that let such a throw escape) are
modelled with `Option`, `none` standing for a thrown exception.
-/

namespace Plotter

/-- `Number.EPSILON` of JavaScript, exactly `2⁻⁵²`. -/
def EPSILON : ℚ := 1 / 2 ^ 52

/-- `Math.abs`. -/
def jsAbs (q : ℚ) : ℚ := if q < 0 then -q else q

/-- 2D vector (`class Vec2`), fields `x`, `y`. -/
structure Vec2 where
  x : ℚ
  y : ℚ
deriving DecidableEq

/-- `Vec2.add`: vector addition. -/
def Vec2.add (v w : Vec2) : Vec2 := ⟨v.x + w.x, v.y + w.y⟩

/-- `Vec2.negative`. -/
def Vec2.negative (v : Vec2) : Vec2 := ⟨-v.x, -v.y⟩

/-- `Vec2.scale`: scalar multiplication. -/
def Vec2.scale (v : Vec2) (scalar : ℚ) : Vec2 := ⟨scalar * v.x, scalar * v.y⟩

/-- `Vec2.dot`: dot product. -/
def Vec2.dot (v w : Vec2) : ℚ := v.x * w.x + v.y * w.y

/-- `Vec2.subtract`: vector subtraction. -/
def Vec2.subtract (v w : Vec2) : Vec2 := ⟨v.x - w.x, v.y - w.y⟩

/-- 2x2 matrix (`class Matrix2`), row-major fields `a b c d`. -/
structure Matrix2 where
  a : ℚ
  b : ℚ
  c : ℚ
  d : ℚ
deriving DecidableEq

/-- `Matrix2.fromColumns`. -/
def Matrix2.fromColumns (col1 col2 : Vec2) : Matrix2 :=
  ⟨col1.x, col2.x, col1.y, col2.y⟩

/-- `Matrix2.apply`: matrix times vector. -/
def Matrix2.apply (m : Matrix2) (vector : Vec2) : Vec2 :=
  ⟨m.a * vector.x + m.b * vector.y, m.c * vector.x + m.d * vector.y⟩

/-- `Matrix2.scale`: scalar multiplication of a matrix. -/
def Matrix2.scale (m : Matrix2) (scalar : ℚ) : Matrix2 :=
  ⟨m.a * scalar, m.b * scalar, m.c * scalar, m.d * scalar⟩

/-- `Matrix2.determinant`: `ad − bc`. -/
def Matrix2.determinant (m : Matrix2) : ℚ := m.a * m.d - m.b * m.c

/-- `Matrix2.inverse`: throws (`none`) when `Math.abs(det) < Number.EPSILON`,
otherwise the adjugate scaled by `1/det`. -/
def Matrix2.inverse (m : Matrix2) : Option Matrix2 :=
  if jsAbs m.determinant < EPSILON then none
  else some ((Matrix2.mk m.d (-m.b) (-m.c) m.a).scale (1 / m.determinant))

/-- `Matrix2.multiply`: matrix product. -/
def Matrix2.multiply (m other : Matrix2) : Matrix2 :=
  ⟨m.a * other.a + m.b * other.c,
   m.a * other.b + m.b * other.d,
   m.c * other.a + m.d * other.c,
   m.c * other.b + m.d * other.d⟩

/-- `class AffineTransform`: linear part plus translation. -/
structure AffineTransform where
  linear : Matrix2
  translation : Vec2
deriving DecidableEq

/-- `AffineTransform.apply`: `linear·v + translation`. -/
def AffineTransform.apply (t : AffineTransform) (vector : Vec2) : Vec2 :=
  (t.linear.apply vector).add t.translation

/-- `AffineTransform.inverse`: fails (`none`) when the linear part is
singular, mirroring the uncaught throw of `Matrix2.inverse`. -/
def AffineTransform.inverse (t : AffineTransform) : Option AffineTransform :=
  t.linear.inverse.map fun invLinear =>
    ⟨invLinear, (invLinear.apply t.translation).scale (-1)⟩

/-- `AffineTransform.compose`. -/
def AffineTransform.compose (t other : AffineTransform) : AffineTransform :=
  ⟨t.linear.multiply other.linear,
   (t.linear.apply other.translation).add t.translation⟩

/-- A rational is nonzero when `Number.EPSILON ≤ |q|`. -/
theorem ne_zero_of_eps_le (q : ℚ) (h : EPSILON ≤ jsAbs q) : q ≠ 0 := by
  intro h0
  rw [h0] at h
  simp only [jsAbs, EPSILON] at h
  norm_num at h

/-- Claim C5: for every `Matrix2` `M` that is non-singular in the sense of the
code's own epsilon test (`Number.EPSILON ≤ |det M|`, so `inverse()` does not
throw) and every `Vec2` `v`, `M.inverse().apply(M.apply(v))` is exactly `v`
over exact arithmetic (hence within `1e-9`). -/
theorem matrix2_inverse_round_trip (M : Matrix2) (v : Vec2)
    (h : EPSILON ≤ jsAbs M.determinant) :
    M.inverse.map (fun Mi => Mi.apply (M.apply v)) = some v := by
  have hdet : M.determinant ≠ 0 := ne_zero_of_eps_le _ h
  have hlt : ¬ jsAbs M.determinant < EPSILON := not_lt.mpr h
  simp only [Matrix2.inverse, hlt, if_false, Option.map_some']
  simp only [Matrix2.apply, Matrix2.scale, Matrix2.determinant] at *
  congr 1
  cases v with
  | mk vx vy =>
    simp only [Vec2.mk.injEq]
    constructor <;> (field_simp; ring)

/-- Witness for C5 at `M = I`, `v = (3,4)`. -/
theorem matrix2_inverse_round_trip_witness :
    EPSILON ≤ jsAbs (Matrix2.mk 1 0 0 1).determinant ∧
      (Matrix2.mk 1 0 0 1).inverse.map
        (fun Mi => Mi.apply ((Matrix2.mk 1 0 0 1).apply ⟨3, 4⟩)) = some ⟨3, 4⟩ :=
  ⟨by norm_num [EPSILON, jsAbs, Matrix2.determinant],
    matrix2_inverse_round_trip (Matrix2.mk 1 0 0 1) ⟨3, 4⟩
      (by norm_num [EPSILON, jsAbs, Matrix2.determinant])⟩

/-- Claim C6: for all `AffineTransform`s `A`, `B`, `C` and every `Vec2` `v`,
`A.compose(B).apply(v) = A.apply(B.apply(v))`, and composition is
associative pointwise: `(A.compose(B)).compose(C)` and
`A.compose(B.compose(C))` agree on every `v`. -/
theorem affine_compose_apply_assoc (A B C : AffineTransform) (v : Vec2) :
    (A.compose B).apply v = A.apply (B.apply v) ∧
      ((A.compose B).compose C).apply v = (A.compose (B.compose C)).apply v := by
  constructor <;>
    (simp only [AffineTransform.compose, AffineTransform.apply, Matrix2.multiply,
      Matrix2.apply, Vec2.add, Vec2.mk.injEq]
     constructor <;> ring)

/-- The mutable viewport state of `class World` relevant to the coordinate
pipeline: the world→screen transform and the pointer-interaction state.
The remaining fields of the source class (SVG handles, shape list, the two
constant increment matrices, viewport size) do not participate in the
verified claims. -/
structure World where
  worldToScreenTransform : AffineTransform
  isDragging : Bool
  lastMousePosition : Vec2
  currentMousePosition : Vec2
deriving DecidableEq

/-- `World.worldToScreen`. -/
def World.worldToScreen (w : World) (vector : Vec2) : Vec2 :=
  w.worldToScreenTransform.apply vector

/-- `World.screenToWorld`; `none` when the inverse transform throws. -/
def World.screenToWorld (w : World) (vector : Vec2) : Option Vec2 :=
  w.worldToScreenTransform.inverse.map fun t => t.apply vector

/-- `World.handleMouseDown`; the DOM event is modelled by the mouse position
it carries (`getMousePosition(event)`). -/
def World.handleMouseDown (w : World) (pos : Vec2) : World :=
  { w with isDragging := true, lastMousePosition := pos }

/-- `World.handleMouseUp`. -/
def World.handleMouseUp (w : World) : World :=
  { w with isDragging := false }

/-- `World.handleMouseMove`; the DOM event is modelled by the mouse position
it carries.  The trailing `this.draw()` call only re-renders the SVG and
touches none of the modelled state. -/
def World.handleMouseMove (w : World) (pos : Vec2) : World :=
  if !w.isDragging then w
  else
    { w with
      worldToScreenTransform :=
        ⟨w.worldToScreenTransform.linear,
         w.worldToScreenTransform.translation.add (pos.subtract w.lastMousePosition)⟩,
      currentMousePosition := pos,
      lastMousePosition := pos }

/-- `World.applyZoom`. -/
def World.applyZoom (w : World) (transformation : Matrix2) (fixedPoint : Vec2) : World :=
  let currentMatrix := w.worldToScreenTransform.linear
  let currentVector := w.worldToScreenTransform.translation
  let newMatrix := currentMatrix.multiply transformation
  let fixedScreen := (currentMatrix.apply fixedPoint).add currentVector
  let newFixedScreen := (newMatrix.apply fixedPoint).add currentVector
  let offset := fixedScreen.subtract newFixedScreen
  { w with worldToScreenTransform := ⟨newMatrix, currentVector.add offset⟩ }

/-- Claim C1: for every viewport state, every `Matrix2` `transform` and every
world point `fixedPoint`, after `applyZoom(transform, fixedPoint)` the screen
position `worldToScreen(fixedPoint)` is exactly the screen position that
`fixedPoint` had before the call (hence within `1e-6`). -/
theorem applyZoom_fixed_point (w : World) (transform : Matrix2) (fixedPoint : Vec2) :
    (w.applyZoom transform fixedPoint).worldToScreen fixedPoint =
      w.worldToScreen fixedPoint := by
  simp only [World.applyZoom, World.worldToScreen, AffineTransform.apply,
    Matrix2.apply, Matrix2.multiply, Vec2.add, Vec2.subtract, Vec2.mk.injEq]
  constructor <;> ring

/-- Claim C9: if the viewport is dragging and its linear part is invertible
(in the code's sense `Number.EPSILON ≤ |det|`), then after the pan performed
by a pointer move to `pos` (translation += delta, linear part unchanged),
`screenToWorld(p + delta)` in the new state equals `screenToWorld(p)` in the
old state, for every screen point `p`. -/
theorem pan_invariant (w : World) (pos p : Vec2)
    (hdrag : w.isDragging = true)
    (h : EPSILON ≤ jsAbs w.worldToScreenTransform.linear.determinant) :
    (w.handleMouseMove pos).screenToWorld (p.add (pos.subtract w.lastMousePosition)) =
      w.screenToWorld p := by
  have hdet : w.worldToScreenTransform.linear.determinant ≠ 0 := ne_zero_of_eps_le _ h
  have hlt : ¬ jsAbs w.worldToScreenTransform.linear.determinant < EPSILON := not_lt.mpr h
  simp only [World.handleMouseMove, hdrag, Bool.not_true, Bool.false_eq_true, if_false,
    World.screenToWorld, AffineTransform.inverse, Matrix2.inverse, hlt, if_false,
    Option.map_some', Option.map_map, Option.some.injEq]
  simp only [Function.comp, AffineTransform.apply, Matrix2.apply, Matrix2.scale,
    Matrix2.determinant, Vec2.add, Vec2.subtract, Vec2.scale, Vec2.mk.injEq]
  simp only [Matrix2.determinant] at hdet
  constructor <;> (field_simp; ring)

/-- Witness for C9 at the identity transform, `pos = (1,2)`, `p = (3,4)`. -/
theorem pan_invariant_witness :
    (World.mk ⟨⟨1, 0, 0, 1⟩, ⟨0, 0⟩⟩ true ⟨0, 0⟩ ⟨0, 0⟩).isDragging = true ∧
      EPSILON ≤ jsAbs (World.mk ⟨⟨1, 0, 0, 1⟩, ⟨0, 0⟩⟩ true ⟨0, 0⟩
        ⟨0, 0⟩).worldToScreenTransform.linear.determinant ∧
      ((World.mk ⟨⟨1, 0, 0, 1⟩, ⟨0, 0⟩⟩ true ⟨0, 0⟩ ⟨0, 0⟩).handleMouseMove
            ⟨1, 2⟩).screenToWorld
          ((Vec2.mk 3 4).add ((Vec2.mk 1 2).subtract ⟨0, 0⟩)) =
        (World.mk ⟨⟨1, 0, 0, 1⟩, ⟨0, 0⟩⟩ true ⟨0, 0⟩ ⟨0, 0⟩).screenToWorld ⟨3, 4⟩ :=
  ⟨rfl, by norm_num [EPSILON, jsAbs, Matrix2.determinant],
    pan_invariant (World.mk ⟨⟨1, 0, 0, 1⟩, ⟨0, 0⟩⟩ true ⟨0, 0⟩ ⟨0, 0⟩)
      ⟨1, 2⟩ ⟨3, 4⟩ rfl (by norm_num [EPSILON, jsAbs, Matrix2.determinant])⟩

/-- Claim C10: if the viewport is not dragging, a pointer-move event leaves
the entire modelled viewport state (transform, both mouse positions, the
dragging flag) unchanged. -/
theorem mousemove_idle_noop (w : World) (pos : Vec2)
    (h : w.isDragging = false) : w.handleMouseMove pos = w := by
  simp [World.handleMouseMove, h]

/-- Witness for C10 at a concrete idle state. -/
theorem mousemove_idle_noop_witness :
    (World.mk ⟨⟨1, 0, 0, 1⟩, ⟨5, 6⟩⟩ false ⟨1, 1⟩ ⟨2, 2⟩).isDragging = false ∧
      (World.mk ⟨⟨1, 0, 0, 1⟩, ⟨5, 6⟩⟩ false ⟨1, 1⟩ ⟨2, 2⟩).handleMouseMove ⟨7, 8⟩ =
        World.mk ⟨⟨1, 0, 0, 1⟩, ⟨5, 6⟩⟩ false ⟨1, 1⟩ ⟨2, 2⟩ :=
  ⟨rfl, mousemove_idle_noop (World.mk ⟨⟨1, 0, 0, 1⟩, ⟨5, 6⟩⟩ false ⟨1, 1⟩ ⟨2, 2⟩) ⟨7, 8⟩ rfl⟩

/-! ### Grid level-of-detail (`src/math-utils.js`)

Grid indices are integers; JavaScript number arithmetic on integers in the
double range is exact, so the functions are embedded over `ℤ`.  `%` is the
JavaScript remainder and `/ 10` the JavaScript float division, which is only
reached when `10` divides the argument and is then the exact integer
division; the embedding only ever applies them to nonnegative arguments,
where `Int.emod`/`Int.ediv` coincide with the JavaScript semantics. -/

/-- `countTrailingZeros(n, m)` of `src/math-utils.js`: recursion on the
fuel `m`. -/
def countTrailingZeros (n : ℤ) : ℕ → ℕ
  | 0 => 0
  | m + 1 => if n % 10 = 0 then countTrailingZeros (n / 10) m + 1 else 0

/-- `determineGridLineRank(n)` of `src/math-utils.js`. -/
def determineGridLineRank (n : ℤ) : ℕ :=
  if n < 0 then countTrailingZeros (-n) 2
  else if n = 0 then 3
  else countTrailingZeros n 2

/-- Specification-side function: the number of trailing base-10 zeros of a
positive natural number (`0` for `n = 0`). -/
def tz10 (n : ℕ) : ℕ :=
  if h : n = 0 then 0
  else if n % 10 = 0 then tz10 (n / 10) + 1 else 0
termination_by n
decreasing_by exact Nat.div_lt_self (Nat.pos_of_ne_zero h) (by norm_num)

theorem countTrailingZeros_eq (m : ℕ) :
    ∀ n : ℤ, 0 < n → countTrailingZeros n m = min m (tz10 n.toNat) := by
  induction m with
  | zero => intro n _; simp [countTrailingZeros]
  | succ m ih =>
    intro n hn
    rw [countTrailingZeros]
    by_cases h : n % 10 = 0
    · have h10 : (10 : ℤ) ∣ n := Int.dvd_of_emod_eq_zero h
      have hge : 10 ≤ n := Int.le_of_dvd hn h10
      have hq : 0 < n / 10 := by omega
      have htn : (n / 10).toNat = n.toNat / 10 := by omega
      rw [if_pos h, ih _ hq, htn]
      have : tz10 n.toNat = tz10 (n.toNat / 10) + 1 := by
        rw [tz10]
        have h1 : n.toNat ≠ 0 := by omega
        have h2 : n.toNat % 10 = 0 := by omega
        simp [h1, h2]
      omega
    · rw [if_neg h]
      have : tz10 n.toNat = 0 := by
        rw [tz10]
        have h1 : n.toNat ≠ 0 := by omega
        have h2 : n.toNat % 10 ≠ 0 := by omega
        simp [h1, h2]
      simp [this]

/-- Claim C4: `determineGridLineRank(0) = 3`; for every nonzero integer `n`,
`determineGridLineRank(n) = min 2 (trailing base-10 zeros of |n|)`; the
result always lies in `{0,1,2,3}` (is at most 3); and the spec's instances
`rank 10 = 1`, `rank 100 = 2`, `rank 200 = 2`, `rank 3 = 0`,
`rank (-100) = 2` hold. -/
theorem determineGridLineRank_spec :
    determineGridLineRank 0 = 3 ∧
      (∀ n : ℤ, n ≠ 0 → determineGridLineRank n = min 2 (tz10 n.natAbs)) ∧
      (∀ n : ℤ, determineGridLineRank n ≤ 3) ∧
      determineGridLineRank 10 = 1 ∧ determineGridLineRank 100 = 2 ∧
      determineGridLineRank 200 = 2 ∧ determineGridLineRank 3 = 0 ∧
      determineGridLineRank (-100) = 2 := by
  have key : ∀ n : ℤ, n ≠ 0 → determineGridLineRank n = min 2 (tz10 n.natAbs) := by
    intro n hn
    rcases lt_trichotomy n 0 with hneg | hzero | hpos
    · have : determineGridLineRank n = countTrailingZeros (-n) 2 := by
        simp [determineGridLineRank, hneg]
      rw [this, countTrailingZeros_eq 2 (-n) (by omega)]
      have habs : (-n).toNat = n.natAbs := by omega
      rw [habs]
    · exact absurd hzero hn
    · have : determineGridLineRank n = countTrailingZeros n 2 := by
        simp [determineGridLineRank, hpos, not_lt.mpr hpos.le, hn]
      rw [this, countTrailingZeros_eq 2 n hpos]
      have habs : n.toNat = n.natAbs := by omega
      rw [habs]
  refine ⟨by simp [determineGridLineRank], key, ?_, ?_, ?_, ?_, ?_, ?_⟩
  · intro n
    by_cases hn : n = 0
    · simp [hn, determineGridLineRank]
    · rw [key n hn]; omega
  all_goals decide

/-- Witness for C4 at `n = 100`: the nonzero-case equation instantiated. -/
theorem determineGridLineRank_spec_witness :
    (100 : ℤ) ≠ 0 ∧ determineGridLineRank 100 = min 2 (tz10 (100 : ℤ).natAbs) :=
  ⟨by decide, determineGridLineRank_spec.2.1 100 (by decide)⟩

/-! ### Newton-Raphson solver (`Numerical` of `src/geometry.js`) -/

/-- `Numerical.jacobian(f)`: one-sided finite differences with `h = 1e-5`. -/
def jacobian (f : Vec2 → Vec2) (v : Vec2) : Matrix2 :=
  ⟨((f ⟨v.x + 1 / 100000, v.y⟩).x - (f v).x) / (1 / 100000),
   ((f ⟨v.x, v.y + 1 / 100000⟩).x - (f v).x) / (1 / 100000),
   ((f ⟨v.x + 1 / 100000, v.y⟩).y - (f v).y) / (1 / 100000),
   ((f ⟨v.x, v.y + 1 / 100000⟩).y - (f v).y) / (1 / 100000)⟩

/-- The loop guard `y.magnitude() < tolerance` rendered exactly:
`Math.sqrt(y·y) < t` holds iff `t` is positive and `y·y < t²`
(square roots have no rational form, but the comparison does). -/
def magLtB (y : Vec2) (tolerance : ℚ) : Bool :=
  decide (0 < tolerance ∧ y.dot y < tolerance * tolerance)

/-- `Numerical.findRoot2D(f, initial, maxIterations, tolerance)`: Newton
iteration; a singular Jacobian (`inverse()` throwing) breaks the loop, and
the source's defaults are `initial = (1,1)`, `maxIterations = 20`,
`tolerance = 1e-7`. -/
def findRoot2D (f : Vec2 → Vec2) (initial : Vec2) :
    ℕ → ℚ → Vec2
  | 0, _ => initial
  | n + 1, tolerance =>
    if magLtB (f initial) tolerance then initial
    else
      match (jacobian f initial).inverse with
      | none => initial
      | some J => findRoot2D f (initial.subtract (J.apply (f initial))) n tolerance

/-- One Newton update as performed by the loop body: identity once the
tolerance is met or the Jacobian is singular. -/
def newtonStep (f : Vec2 → Vec2) (tolerance : ℚ) (x : Vec2) : Vec2 :=
  if magLtB (f x) tolerance then x
  else
    match (jacobian f x).inverse with
    | none => x
    | some J => x.subtract (J.apply (f x))

/-- Claim C7: for every total `f`, every initial point, `maxIterations` and
tolerance, `findRoot2D` returns a point and never signals an error: its
result is exactly `maxIterations` applications of the absorbing Newton step
(so at most `maxIterations` genuine updates `x ← x − J(x)⁻¹·f(x)`); it
returns the current point as soon as `‖f(x)‖ < tolerance`; and when the
finite-difference Jacobian is singular at the initial iterate it returns
that iterate instead of raising. -/
theorem findRoot2D_behavior (f : Vec2 → Vec2) (x₀ : Vec2) (n : ℕ) (tol : ℚ) :
    findRoot2D f x₀ n tol = (newtonStep f tol)^[n] x₀ ∧
      (magLtB (f x₀) tol = true → findRoot2D f x₀ n tol = x₀) ∧
      ((jacobian f x₀).inverse = none → findRoot2D f x₀ n tol = x₀) := by
  have iter : ∀ n x, findRoot2D f x n tol = (newtonStep f tol)^[n] x := by
    intro n
    induction n with
    | zero => intro x; rfl
    | succ n ih =>
      intro x
      rw [findRoot2D, Function.iterate_succ_apply]
      by_cases hmag : magLtB (f x) tol
      · have hstep : newtonStep f tol x = x := by simp [newtonStep, hmag]
        rw [if_pos hmag, hstep, Function.iterate_fixed hstep]
      · rw [if_neg hmag]
        cases hinv : (jacobian f x).inverse with
        | none =>
          have hstep : newtonStep f tol x = x := by simp [newtonStep, hmag, hinv]
          rw [hstep, Function.iterate_fixed hstep]
        | some J =>
          show findRoot2D f (x.subtract (J.apply (f x))) n tol =
            (newtonStep f tol)^[n] (newtonStep f tol x)
          rw [ih]
          congr 1
          simp [newtonStep, hmag, hinv]
  refine ⟨iter n x₀, ?_, ?_⟩
  · intro hmag
    cases n with
    | zero => rfl
    | succ n => rw [findRoot2D, if_pos hmag]
  · intro hinv
    cases n with
    | zero => rfl
    | succ n =>
      rw [findRoot2D]
      by_cases hmag : magLtB (f x₀) tol
      · rw [if_pos hmag]
      · rw [if_neg hmag, hinv]

/-- Witness for C7: the tolerance-met case at `f = id`, `x₀ = (0,0)`,
`tol = 1`, and the singular-Jacobian case at the constant map `(1,1)`. -/
theorem findRoot2D_behavior_witness :
    (magLtB ((fun v => v) (Vec2.mk 0 0)) 1 = true ∧
        findRoot2D (fun v => v) ⟨0, 0⟩ 5 1 = ⟨0, 0⟩) ∧
      ((jacobian (fun _ => Vec2.mk 1 1) ⟨0, 0⟩).inverse = none ∧
        findRoot2D (fun _ => Vec2.mk 1 1) ⟨0, 0⟩ 5 1 = ⟨0, 0⟩) := by
  have h1 : magLtB ((fun v => v) (Vec2.mk 0 0)) 1 = true := by
    simp [magLtB, Vec2.dot]
  have h2 : (jacobian (fun _ => Vec2.mk 1 1) ⟨0, 0⟩).inverse = none := by
    simp [jacobian, Matrix2.inverse, Matrix2.determinant, jsAbs, EPSILON]
  exact ⟨⟨h1, (findRoot2D_behavior (fun v => v) ⟨0, 0⟩ 5 1).2.1 h1⟩,
    ⟨h2, (findRoot2D_behavior (fun _ => Vec2.mk 1 1) ⟨0, 0⟩ 5 1).2.2 h2⟩⟩

/-! ### `Vec2.power` at the zero vector (claim C8)

At the zero vector every step of `Vec2.power` is exact IEEE-754 arithmetic
with no rounding: `magnitude() = Math.sqrt(0) = 0`, `angle() = atan2(0,0) = 0`,
`r = Math.pow(0, exponent)`, `exponent * 0 = 0`, `Math.cos(0) = 1`,
`Math.sin(0) = 0`, and the final products are `r * 1` and `r * 0`.  The
carrier below extends `ℚ` by the special values that occur; the signed zero
is collapsed to `0`, which is harmless here because `r * (±0)` is `NaN`
exactly when `r` is infinite, independently of the zero's sign. -/

/-- Carrier for the IEEE-754 special values reachable in `Vec2.power` at
the zero vector. -/
inductive JsNum where
  | num (q : ℚ)
  | inf
  | ninf
  | nan
deriving DecidableEq

/-- IEEE-754 multiplication on the carrier (signed zero collapsed). -/
def jsMul : JsNum → JsNum → JsNum
  | .nan, _ => .nan
  | .num _, .nan => .nan
  | .inf, .nan => .nan
  | .ninf, .nan => .nan
  | .num a, .num b => .num (a * b)
  | .num a, .inf => if a = 0 then .nan else if 0 < a then .inf else .ninf
  | .num a, .ninf => if a = 0 then .nan else if 0 < a then .ninf else .inf
  | .inf, .num b => if b = 0 then .nan else if 0 < b then .inf else .ninf
  | .ninf, .num b => if b = 0 then .nan else if 0 < b then .ninf else .inf
  | .inf, .inf => .inf
  | .inf, .ninf => .ninf
  | .ninf, .inf => .ninf
  | .ninf, .ninf => .inf

/-- `Math.pow(+0, e)` per ECMAScript/IEEE-754: `+∞` for `e < 0`, `1` for
`e = 0`, `+0` for `e > 0`. -/
def jsPowZeroBase (e : ℚ) : JsNum :=
  if e < 0 then .inf else if e = 0 then .num 1 else .num 0

/-- `Vec2.power(exponent)` evaluated at the zero vector `(0,0)`:
`r = Math.pow(magnitude(), e) = Math.pow(0, e)`, `phi = angle() = 0`, result
`(r * Math.cos(e*phi), r * Math.sin(e*phi)) = (r * 1, r * 0)`. -/
def powerAtZero (exponent : ℚ) : JsNum × JsNum :=
  (jsMul (jsPowZeroBase exponent) (.num 1), jsMul (jsPowZeroBase exponent) (.num 0))

/-- Claim C8 is violated by the code: at the negative exponent `-1` the
zero vector is mapped to `(+∞, NaN)` — the `y` component is
`Infinity * 0 = NaN` — so `power` does propagate a `NaN` component for
negative exponents; for exponents `1` and `0` the results `(0, 0)` and
`(1, 0)` are `NaN`-free, as the claim expects for all exponents. -/
theorem power_zero_vector_eval :
    powerAtZero (-1) = (JsNum.inf, JsNum.nan) ∧
      powerAtZero 1 = (JsNum.num 0, JsNum.num 0) ∧
      powerAtZero 0 = (JsNum.num 1, JsNum.num 0) := by
  refine ⟨?_, ?_, ?_⟩ <;> norm_num [powerAtZero, jsPowZeroBase, jsMul]

/-! ### Geometric shapes and line intersection (`src/geometry.js`) -/

/-- `class Line` with fields `origin`, `direction`.  The source constructor
stores `direction.normalized()`; a `Line` value models the post-construction
state whose stored direction is the normalized input (normalization is the
identity on unit directions such as `(1,0)`, exactly, also in doubles). -/
structure Line where
  origin : Vec2
  direction : Vec2
deriving DecidableEq

/-- `class Rectangle`; the constructor sorts the two corner pairs. -/
structure Rectangle where
  minX : ℚ
  minY : ℚ
  maxX : ℚ
  maxY : ℚ
deriving DecidableEq

/-- `new Rectangle(x1, y1, x2, y2)`. -/
def Rectangle.make (x1 y1 x2 y2 : ℚ) : Rectangle :=
  ⟨min x1 x2, min y1 y2, max x1 x2, max y1 y2⟩

/-- `class Polygon`: implicitly closed vertex list. -/
structure Polygon where
  vertices : List Vec2
deriving DecidableEq

/-- `class Path`: open vertex list. -/
structure Path where
  vertices : List Vec2
deriving DecidableEq

/-- `Rectangle.toPolygon`: the four corners. -/
def Rectangle.toPolygon (r : Rectangle) : Polygon :=
  ⟨[⟨r.minX, r.minY⟩, ⟨r.maxX, r.minY⟩, ⟨r.maxX, r.maxY⟩, ⟨r.minX, r.maxY⟩]⟩

/-! #### `Array.prototype.sort()` without a comparator

ECMAScript `SortCompare` with no comparator converts both elements to
strings and compares the strings by UTF-16 code units.  The conversion is
modelled as the code-unit list of the decimal rendering — exact for
integral values, which are the only values the development compares. -/

/-- Decimal digits of `n/10^k`-style recursion, most significant first;
the first argument is fuel, always sufficient at `fuel = n`. -/
def natDecToList : ℕ → ℕ → List ℕ
  | 0, _ => []
  | f + 1, n => if n = 0 then [] else natDecToList f (n / 10) ++ [n % 10]

/-- Decimal digits of `n`, most significant first (`[0]` for `0`). -/
def natDigits (n : ℕ) : List ℕ :=
  if n = 0 then [0] else natDecToList n n

/-- Digits after the decimal point of `r/den`, at most `fuel` many (17, the
maximum decimal precision of a double, suffices for the rendering). -/
def fracDigits : ℕ → ℕ → ℕ → List ℕ
  | 0, _, _ => []
  | f + 1, r, den => if r = 0 then [] else 10 * r / den :: fracDigits f (10 * r % den) den

/-- UTF-16 code units of the ECMAScript decimal rendering of a number:
`45` is the minus sign, `46` the decimal point, `48 + d` the digit `d`. -/
def jsNumRepr (q : ℚ) : List ℕ :=
  (if q < 0 then [45] else []) ++
    (natDigits (q.num.natAbs / q.den)).map (· + 48) ++
    (if q.den = 1 then []
     else 46 :: (fracDigits 17 (q.num.natAbs % q.den) q.den).map (· + 48))

/-- Code-unit-wise lexicographic string order. -/
def lexLt : List ℕ → List ℕ → Bool
  | [], [] => false
  | [], _ :: _ => true
  | _ :: _, [] => false
  | a :: as, b :: bs => if a < b then true else if b < a then false else lexLt as bs

/-- The default `SortCompare`: `jsLe a b` iff `String(a) ≤ String(b)`. -/
def jsLe (a b : ℚ) : Bool := !(lexLt (jsNumRepr b) (jsNumRepr a))

/-- Insertion into a `jsLe`-sorted list. -/
def insertSorted (x : ℚ) : List ℚ → List ℚ
  | [] => [x]
  | y :: ys => if jsLe x y then x :: y :: ys else y :: insertSorted x ys

/-- `scalar_array.sort()`: a stable sort with respect to `jsLe`. -/
def jsSort : List ℚ → List ℚ
  | [] => []
  | x :: xs => insertSorted x (jsSort xs)

/-- The edge list traversed by `Polygon.intersectLine`: `i` from `0` to
`vertices.length − 1`, edge from `vertices[i % n]` to `vertices[(i+1) % n]`
(the indices are always in range, so the `getD` default is never used). -/
def Polygon.edges (P : Polygon) : List (Vec2 × Vec2) :=
  (List.range P.vertices.length).map fun i =>
    (P.vertices.getD (i % P.vertices.length) ⟨0, 0⟩,
     P.vertices.getD ((i + 1) % P.vertices.length) ⟨0, 0⟩)

/-- The edge list traversed by `Path.intersectLine`: as for `Polygon` but
`i` only reaches `vertices.length − 2` (the path is open). -/
def Path.edges (P : Path) : List (Vec2 × Vec2) :=
  (List.range (P.vertices.length - 1)).map fun i =>
    (P.vertices.getD (i % P.vertices.length) ⟨0, 0⟩,
     P.vertices.getD ((i + 1) % P.vertices.length) ⟨0, 0⟩)

/-- The loop shared verbatim by `Path.intersectLine` and
`Polygon.intersectLine`, accumulating the accepted `scalars.x` values in
edge order.  A zero determinant skips the edge (`continue`); a nonzero
determinant below `Number.EPSILON` in absolute value makes `inverse()`
throw, which no enclosing `try` catches — modelled by `none`. -/
def intersectScalars (L : Line) : List (Vec2 × Vec2) → Option (List ℚ)
  | [] => some []
  | (s, e) :: rest =>
    if (Matrix2.fromColumns L.direction ((e.subtract s).negative)).determinant = 0 then
      intersectScalars L rest
    else
      match (Matrix2.fromColumns L.direction ((e.subtract s).negative)).inverse with
      | none => none
      | some m =>
        if (m.apply (s.subtract L.origin)).y < 0 ∨ 1 ≤ (m.apply (s.subtract L.origin)).y then
          intersectScalars L rest
        else
          (intersectScalars L rest).map fun arr => (m.apply (s.subtract L.origin)).x :: arr

/-- `Polygon.intersectLine(line)`: accepted scalars, default-sorted, mapped
back to `line.origin + s·line.direction`. -/
def Polygon.intersectLine (P : Polygon) (line : Line) : Option (List Vec2) :=
  (intersectScalars line P.edges).map fun arr =>
    (jsSort arr).map fun scalar => line.origin.add (line.direction.scale scalar)

/-- `Path.intersectLine(line)`: same loop over the open edge list. -/
def Path.intersectLine (P : Path) (line : Line) : Option (List Vec2) :=
  (intersectScalars line P.edges).map fun arr =>
    (jsSort arr).map fun scalar => line.origin.add (line.direction.scale scalar)

/-- Claim C2 is violated by the code: for the polygon with vertices
`(2,−1), (2,1), (10,1), (10,−1)` and the line through the origin with unit
direction `(1,0)`, the accepted scalars are `2` (left edge) and `10` (right
edge), but the comparator-less `sort()` compares the strings `"2"` and
`"10"` and orders `10` before `2`: the returned list is
`[(10,0), (2,0)]`, not ascending in the line parameter.  (The same loop and
sort are executed by `Path.intersectLine` on the same vertex list, with the
same result.) -/
theorem intersectLine_jsSort_eval :
    Polygon.intersectLine ⟨[⟨2, -1⟩, ⟨2, 1⟩, ⟨10, 1⟩, ⟨10, -1⟩]⟩ ⟨⟨0, 0⟩, ⟨1, 0⟩⟩ =
        some [⟨10, 0⟩, ⟨2, 0⟩] ∧
      Path.intersectLine ⟨[⟨2, -1⟩, ⟨2, 1⟩, ⟨10, 1⟩, ⟨10, -1⟩]⟩ ⟨⟨0, 0⟩, ⟨1, 0⟩⟩ =
        some [⟨10, 0⟩, ⟨2, 0⟩] := by
  have hpoly : (Polygon.mk [⟨2, -1⟩, ⟨2, 1⟩, ⟨10, 1⟩, ⟨10, -1⟩]).edges =
      [(⟨2, -1⟩, ⟨2, 1⟩), (⟨2, 1⟩, ⟨10, 1⟩), (⟨10, 1⟩, ⟨10, -1⟩), (⟨10, -1⟩, ⟨2, -1⟩)] := rfl
  have hpath : (Path.mk [⟨2, -1⟩, ⟨2, 1⟩, ⟨10, 1⟩, ⟨10, -1⟩]).edges =
      [(⟨2, -1⟩, ⟨2, 1⟩), (⟨2, 1⟩, ⟨10, 1⟩), (⟨10, 1⟩, ⟨10, -1⟩)] := rfl
  have hscal : intersectScalars ⟨⟨0, 0⟩, ⟨1, 0⟩⟩
      [(⟨2, -1⟩, ⟨2, 1⟩), (⟨2, 1⟩, ⟨10, 1⟩), (⟨10, 1⟩, ⟨10, -1⟩), (⟨10, -1⟩, ⟨2, -1⟩)] =
      some [2, 10] := by
    norm_num [intersectScalars, Matrix2.fromColumns, Matrix2.determinant, Matrix2.inverse,
      Matrix2.scale, Matrix2.apply, Vec2.subtract, Vec2.negative, jsAbs, EPSILON]
  have hscalPath : intersectScalars ⟨⟨0, 0⟩, ⟨1, 0⟩⟩
      [(⟨2, -1⟩, ⟨2, 1⟩), (⟨2, 1⟩, ⟨10, 1⟩), (⟨10, 1⟩, ⟨10, -1⟩)] =
      some [2, 10] := by
    norm_num [intersectScalars, Matrix2.fromColumns, Matrix2.determinant, Matrix2.inverse,
      Matrix2.scale, Matrix2.apply, Vec2.subtract, Vec2.negative, jsAbs, EPSILON]
  have hsort : jsSort [2, 10] = [10, 2] := by
    norm_num [jsSort, insertSorted, jsLe, jsNumRepr, natDigits, natDecToList, lexLt]
  constructor
  · rw [Polygon.intersectLine, hpoly, hscal]
    rw [Option.map_some']
    rw [hsort]
    norm_num [Vec2.add, Vec2.scale]
  · rw [Path.intersectLine, hpath, hscalPath]
    rw [Option.map_some']
    rw [hsort]
    norm_num [Vec2.add, Vec2.scale]

/-! #### Counting the accepted edges -/

theorem length_insertSorted (x : ℚ) (l : List ℚ) :
    (insertSorted x l).length = l.length + 1 := by
  induction l with
  | nil => rfl
  | cons y ys ih =>
    rw [insertSorted]
    by_cases h : jsLe x y
    · rw [if_pos h]
      simp
    · rw [if_neg h]
      simp [ih]

theorem length_jsSort (l : List ℚ) : (jsSort l).length = l.length := by
  induction l with
  | nil => rfl
  | cons x xs ih =>
    rw [jsSort, length_insertSorted, ih]
    rfl

theorem det_unfold (L : Line) (s e : Vec2) :
    (Matrix2.fromColumns L.direction ((e.subtract s).negative)).determinant =
      (e.x - s.x) * L.direction.y - (e.y - s.y) * L.direction.x := by
  simp only [Matrix2.fromColumns, Matrix2.determinant, Vec2.subtract, Vec2.negative]
  ring

theorem inverse_some_val (M m : Matrix2) (h : M.inverse = some m) :
    m = (Matrix2.mk M.d (-M.b) (-M.c) M.a).scale (1 / M.determinant) := by
  rw [Matrix2.inverse] at h
  by_cases heps : jsAbs M.determinant < EPSILON
  · rw [if_pos heps] at h
    cases h
  · rw [if_neg heps] at h
    exact (Option.some.inj h).symm

theorem unit_interval_mul (N c : ℚ) (hc : c ≠ 0) (h1 : 0 ≤ N / c) (h2 : N / c < 1) :
    0 ≤ N * c ∧ N * c < c * c := by
  have hc2 : 0 < c * c := mul_self_pos.mpr hc
  have e1 : N * c = (N / c) * (c * c) := by
    field_simp
    ring
  constructor
  · rw [e1]
    exact mul_nonneg h1 hc2.le
  · rw [e1]
    calc (N / c) * (c * c) < 1 * (c * c) := mul_lt_mul_of_pos_right h2 hc2
      _ = c * c := one_mul _

theorem unit_interval_div (N c : ℚ) (hc : c ≠ 0) (h1 : 0 ≤ N * c) (h2 : N * c < c * c) :
    0 ≤ N / c ∧ N / c < 1 := by
  have hc2 : 0 < c * c := mul_self_pos.mpr hc
  have e1 : N / c = (N * c) / (c * c) := by
    field_simp
    ring
  constructor
  · rw [e1]
    exact div_nonneg h1 hc2.le
  · rw [e1, div_lt_one hc2]
    exact h2

/-- Whether an edge `(s, e)` contributes an accepted scalar to
`intersectScalars`, stated division-free: writing `det` for the
basis-change determinant and `N/det` for the edge parameter `scalars.y`,
acceptance is `det ≠ 0 ∧ 0 ≤ scalars.y < 1`, i.e.
`det ≠ 0 ∧ 0 ≤ N·det ∧ N·det < det²`. -/
def edgeAccepts (L : Line) (se : Vec2 × Vec2) : Bool :=
  decide (((se.2.x - se.1.x) * L.direction.y - (se.2.y - se.1.y) * L.direction.x ≠ 0) ∧
    0 ≤ (L.direction.x * (se.1.y - L.origin.y) - L.direction.y * (se.1.x - L.origin.x)) *
        ((se.2.x - se.1.x) * L.direction.y - (se.2.y - se.1.y) * L.direction.x) ∧
    (L.direction.x * (se.1.y - L.origin.y) - L.direction.y * (se.1.x - L.origin.x)) *
        ((se.2.x - se.1.x) * L.direction.y - (se.2.y - se.1.y) * L.direction.x) <
      ((se.2.x - se.1.x) * L.direction.y - (se.2.y - se.1.y) * L.direction.x) *
        ((se.2.x - se.1.x) * L.direction.y - (se.2.y - se.1.y) * L.direction.x))

/-- When `intersectScalars` returns without throwing, the number of
collected scalars is the number of accepted edges. -/
theorem intersectScalars_some (L : Line) :
    ∀ (es : List (Vec2 × Vec2)) (l : List ℚ), intersectScalars L es = some l →
      l.length = (es.filter (edgeAccepts L)).length := by
  intro es
  induction es with
  | nil =>
    intro l h
    rw [intersectScalars] at h
    injection h with h
    subst h
    rfl
  | cons se rest ih =>
    obtain ⟨s, e⟩ := se
    intro l h
    rw [intersectScalars] at h
    by_cases hdet :
        (Matrix2.fromColumns L.direction ((e.subtract s).negative)).determinant = 0
    · rw [if_pos hdet] at h
      have hDt : (e.x - s.x) * L.direction.y - (e.y - s.y) * L.direction.x = 0 := by
        rw [← det_unfold L s e]
        exact hdet
      have hacc : edgeAccepts L (s, e) = false := by
        simp only [edgeAccepts, decide_eq_false_iff_not, not_and]
        intro hc
        exact absurd hDt hc
      rw [List.filter_cons_of_neg (by simp [hacc])]
      exact ih l h
    · rw [if_neg hdet] at h
      split at h
      · cases h
      · rename_i m hinv
        have hm := inverse_some_val _ _ hinv
        subst hm
        have hDt0 : (e.x - s.x) * L.direction.y - (e.y - s.y) * L.direction.x ≠ 0 := by
          rw [← det_unfold L s e]
          exact hdet
        have hscy :
            ((((Matrix2.mk (Matrix2.fromColumns L.direction ((e.subtract s).negative)).d
                  (-(Matrix2.fromColumns L.direction ((e.subtract s).negative)).b)
                  (-(Matrix2.fromColumns L.direction ((e.subtract s).negative)).c)
                  (Matrix2.fromColumns L.direction ((e.subtract s).negative)).a).scale
                (1 / (Matrix2.fromColumns L.direction ((e.subtract s).negative)).determinant)).apply
              (s.subtract L.origin)).y) =
            (L.direction.x * (s.y - L.origin.y) - L.direction.y * (s.x - L.origin.x)) /
              ((e.x - s.x) * L.direction.y - (e.y - s.y) * L.direction.x) := by
          rw [det_unfold L s e]
          simp only [Matrix2.fromColumns, Matrix2.scale, Matrix2.apply, Vec2.subtract,
            Vec2.negative]
          ring
        rw [hscy] at h
        by_cases hrej :
            (L.direction.x * (s.y - L.origin.y) - L.direction.y * (s.x - L.origin.x)) /
                ((e.x - s.x) * L.direction.y - (e.y - s.y) * L.direction.x) < 0 ∨
              1 ≤ (L.direction.x * (s.y - L.origin.y) - L.direction.y * (s.x - L.origin.x)) /
                ((e.x - s.x) * L.direction.y - (e.y - s.y) * L.direction.x)
        · rw [if_pos hrej] at h
          have hacc : edgeAccepts L (s, e) = false := by
            simp only [edgeAccepts, decide_eq_false_iff_not]
            rintro ⟨-, hu1, hu2⟩
            have hdiv := unit_interval_div _ _ hDt0 hu1 hu2
            rcases hrej with hr | hr
            · exact absurd hdiv.1 (not_le.mpr hr)
            · exact absurd hdiv.2 (not_lt.mpr hr)
          rw [List.filter_cons_of_neg (by simp [hacc])]
          exact ih l h
        · rw [if_neg hrej] at h
          push_neg at hrej
          have hacc : edgeAccepts L (s, e) = true := by
            simp only [edgeAccepts, decide_eq_true_eq]
            exact ⟨hDt0, unit_interval_mul _ _ hDt0 hrej.1 hrej.2⟩
          rw [List.filter_cons_of_pos (by simp [hacc])]
          cases hrec : intersectScalars L rest with
          | none =>
            rw [hrec] at h
            simp at h
          | some l' =>
            rw [hrec, Option.map_some'] at h
            injection h with h
            subst h
            simp [ih l' hrec]

/-! #### Convex polygons and the at-most-two-points bound

Writing `σ(v) = Dx·(v.y − Oy) − Dy·(v.x − Ox)` for the affine functional
whose zero set is the line, an edge `(s, e)` is accepted by the loop exactly
when `σ` strictly changes sign from `s` to `e`, with values `0` counted on
the start side (the half-open rule): `(0 ≤ σ s ∧ σ e < 0) ∨ (σ s ≤ 0 ∧ 0 < σ e)`.
A vertex cycle is the boundary walk of a convex polygon precisely when every
affine functional is unimodal along the cycle — after rotating the cycle it
weakly increases and then weakly decreases.  (The functional grows along the
boundary arc from its minimizing face to its maximizing face and shrinks
along the complementary arc; collinear and repeated vertices are allowed.
Non-convex cycles, star traversals and multiply-wound cycles all admit an
oscillating functional.)  Along such a cycle at most one edge can cross
upward and at most one downward, so at most 2 edges are accepted. -/

/-- Upward half-open sign crossing of a consecutive value pair. -/
def upP (q : ℚ × ℚ) : Bool := decide (q.1 ≤ 0 ∧ 0 < q.2)

/-- Downward half-open sign crossing of a consecutive value pair. -/
def downP (q : ℚ × ℚ) : Bool := decide (0 ≤ q.1 ∧ q.2 < 0)

/-- Either sign crossing: the acceptance condition in terms of `σ`. -/
def crossesB (q : ℚ × ℚ) : Bool :=
  decide ((0 ≤ q.1 ∧ q.2 < 0) ∨ (q.1 ≤ 0 ∧ 0 < q.2))

/-- Consecutive pairs of a list. -/
def linPairs (l : List ℚ) : List (ℚ × ℚ) := l.zip l.tail

/-- Consecutive pairs around the closed cycle (the last pair wraps). -/
def cyclicPairs : List ℚ → List (ℚ × ℚ)
  | [] => []
  | x :: xs => linPairs ((x :: xs) ++ [x])

/-- Last element with a default. -/
def lastD : List ℚ → ℚ → ℚ
  | [], d => d
  | [x], _ => x
  | _ :: y :: t, d => lastD (y :: t) d

/-- A list that weakly increases and then weakly decreases. -/
def UpDown (l : List ℚ) : Prop :=
  ∃ l₁ l₂ : List ℚ, l = l₁ ++ l₂ ∧
    List.Chain' (· ≤ ·) l₁ ∧ List.Chain' (· ≥ ·) l₂

/-- Unimodality of a closed value cycle: some rotation is `UpDown`. -/
def CyclicBitonic (l : List ℚ) : Prop := ∃ k : ℕ, UpDown (l.rotate k)

/-- Convexity of the vertex cycle of a polygon: every affine functional on
the plane is unimodal along the closed cycle.  The viewport rectangle
qualifies (`rectangle_convexCyclic`). -/
def ConvexCyclic (P : Polygon) : Prop :=
  ∀ c₀ c₁ c₂ : ℚ, CyclicBitonic (P.vertices.map fun v => c₀ + c₁ * v.x + c₂ * v.y)

/-- The signed-side functional of a line. -/
def sigmaL (L : Line) (v : Vec2) : ℚ :=
  L.direction.x * (v.y - L.origin.y) - L.direction.y * (v.x - L.origin.x)

theorem linPairs_cons_cons (x m : ℚ) (M : List ℚ) :
    linPairs (x :: m :: M) = (x, m) :: linPairs (m :: M) := rfl

theorem linPairs_append (a b : ℚ) (A B : List ℚ) :
    linPairs ((a :: A) ++ (b :: B)) =
      linPairs (a :: A) ++ (lastD (a :: A) 0, b) :: linPairs (b :: B) := by
  induction A generalizing a with
  | nil => rfl
  | cons c A' ih =>
    have h1 : (a :: c :: A') ++ (b :: B) = a :: ((c :: A') ++ (b :: B)) := rfl
    rw [h1, show ((c :: A') ++ (b :: B)) = c :: (A' ++ b :: B) from rfl]
    rw [linPairs_cons_cons, show c :: (A' ++ b :: B) = (c :: A') ++ (b :: B) from rfl]
    rw [ih c]
    rfl

theorem mem_of_mem_linPairs (l : List ℚ) (q : ℚ × ℚ) (h : q ∈ linPairs l) :
    q.1 ∈ l ∧ q.2 ∈ l := by
  obtain ⟨q1, q2⟩ := q
  have := List.of_mem_zip h
  exact ⟨this.1, List.mem_of_mem_tail this.2⟩

theorem pairs_rel_of_chain_le (l : List ℚ) (h : List.Chain' (· ≤ ·) l) :
    ∀ q ∈ linPairs l, q.1 ≤ q.2 := by
  induction l with
  | nil => intro q hq; cases hq
  | cons x M ih =>
    intro q hq
    cases M with
    | nil => cases hq
    | cons m M' =>
      rw [linPairs_cons_cons] at hq
      rw [List.chain'_cons] at h
      rcases List.mem_cons.mp hq with rfl | hq'
      · exact h.1
      · exact ih h.2 q hq'

theorem pairs_rel_of_chain_ge (l : List ℚ) (h : List.Chain' (· ≥ ·) l) :
    ∀ q ∈ linPairs l, q.2 ≤ q.1 := by
  induction l with
  | nil => intro q hq; cases hq
  | cons x M ih =>
    intro q hq
    cases M with
    | nil => cases hq
    | cons m M' =>
      rw [linPairs_cons_cons] at hq
      rw [List.chain'_cons] at h
      rcases List.mem_cons.mp hq with rfl | hq'
      · exact h.1
      · exact ih h.2 q hq'

theorem ups_zero_of_all_pos (l : List ℚ) (h : ∀ x ∈ l, 0 < x) :
    List.countP upP (linPairs l) = 0 := by
  rw [List.countP_eq_zero]
  intro q hq
  have hm := mem_of_mem_linPairs l q hq
  simp only [upP, decide_eq_true_eq, not_and]
  intro h1
  exact absurd (h q.1 hm.1) (not_lt.mpr h1)

theorem ups_zero_of_all_nonpos (l : List ℚ) (h : ∀ x ∈ l, x ≤ 0) :
    List.countP upP (linPairs l) = 0 := by
  rw [List.countP_eq_zero]
  intro q hq
  have hm := mem_of_mem_linPairs l q hq
  simp only [upP, decide_eq_true_eq, not_and]
  intro
  exact not_lt.mpr (h q.2 hm.2)

theorem downs_zero_of_all_nonneg (l : List ℚ) (h : ∀ x ∈ l, 0 ≤ x) :
    List.countP downP (linPairs l) = 0 := by
  rw [List.countP_eq_zero]
  intro q hq
  have hm := mem_of_mem_linPairs l q hq
  simp only [downP, decide_eq_true_eq, not_and]
  intro
  exact not_lt.mpr (h q.2 hm.2)

theorem downs_zero_of_all_neg (l : List ℚ) (h : ∀ x ∈ l, x < 0) :
    List.countP downP (linPairs l) = 0 := by
  rw [List.countP_eq_zero]
  intro q hq
  have hm := mem_of_mem_linPairs l q hq
  simp only [downP, decide_eq_true_eq, not_and]
  intro h1
  exact absurd (h q.1 hm.1) (not_lt.mpr h1)

theorem ups_zero_of_dec (l : List ℚ) (h : List.Chain' (· ≥ ·) l) :
    List.countP upP (linPairs l) = 0 := by
  rw [List.countP_eq_zero]
  intro q hq
  have hrel := pairs_rel_of_chain_ge l h q hq
  simp only [upP, decide_eq_true_eq, not_and]
  intro h1
  exact not_lt.mpr (le_trans hrel h1)

theorem downs_zero_of_inc (l : List ℚ) (h : List.Chain' (· ≤ ·) l) :
    List.countP downP (linPairs l) = 0 := by
  rw [List.countP_eq_zero]
  intro q hq
  have hrel := pairs_rel_of_chain_le l h q hq
  simp only [downP, decide_eq_true_eq, not_and]
  intro h1
  exact not_lt.mpr (le_trans h1 hrel)

theorem lastD_cons_mem (a : ℚ) (A : List ℚ) (d : ℚ) : lastD (a :: A) d ∈ a :: A := by
  induction A generalizing a with
  | nil => simp [lastD]
  | cons c A' ih =>
    have h1 : lastD (a :: c :: A') d = lastD (c :: A') d := rfl
    rw [h1]
    exact List.mem_cons_of_mem a (ih c)

theorem inc_head_le (a : ℚ) (A : List ℚ) (h : List.Chain' (· ≤ ·) (a :: A)) :
    ∀ x ∈ a :: A, a ≤ x := by
  induction A generalizing a with
  | nil =>
    intro x hx
    rw [List.mem_singleton] at hx
    exact le_of_eq hx.symm
  | cons c A' ih =>
    intro x hx
    rw [List.chain'_cons] at h
    rcases List.mem_cons.mp hx with rfl | hx'
    · exact le_refl x
    · exact le_trans h.1 (ih c h.2 x hx')

theorem inc_le_last (a : ℚ) (A : List ℚ) (h : List.Chain' (· ≤ ·) (a :: A)) :
    ∀ x ∈ a :: A, x ≤ lastD (a :: A) 0 := by
  induction A generalizing a with
  | nil =>
    intro x hx
    rw [List.mem_singleton] at hx
    exact le_of_eq hx
  | cons c A' ih =>
    have hlast : lastD (a :: c :: A') 0 = lastD (c :: A') 0 := rfl
    intro x hx
    rw [List.chain'_cons] at h
    rw [hlast]
    rcases List.mem_cons.mp hx with rfl | hx'
    · exact le_trans h.1 (ih c h.2 c (List.mem_cons_self c A'))
    · exact ih c h.2 x hx'

theorem dec_le_head (b : ℚ) (B : List ℚ) (h : List.Chain' (· ≥ ·) (b :: B)) :
    ∀ x ∈ b :: B, x ≤ b := by
  induction B generalizing b with
  | nil =>
    intro x hx
    rw [List.mem_singleton] at hx
    exact le_of_eq hx
  | cons c B' ih =>
    intro x hx
    rw [List.chain'_cons] at h
    rcases List.mem_cons.mp hx with rfl | hx'
    · exact le_refl x
    · exact le_trans (ih c h.2 x hx') h.1

theorem dec_last_le (b : ℚ) (B : List ℚ) (h : List.Chain' (· ≥ ·) (b :: B)) :
    ∀ x ∈ b :: B, lastD (b :: B) 0 ≤ x := by
  induction B generalizing b with
  | nil =>
    intro x hx
    rw [List.mem_singleton] at hx
    exact le_of_eq hx.symm
  | cons c B' ih =>
    have hlast : lastD (b :: c :: B') 0 = lastD (c :: B') 0 := rfl
    intro x hx
    rw [hlast]
    rw [List.chain'_cons] at h
    rcases List.mem_cons.mp hx with rfl | hx'
    · exact le_trans (ih c h.2 c (List.mem_cons_self c B')) h.1
    · exact ih c h.2 x hx'

theorem ups_le_one_of_inc : ∀ (l : List ℚ), List.Chain' (· ≤ ·) l →
    List.countP upP (linPairs l) ≤ 1
  | [], _ => by simp [linPairs]
  | [x], _ => by simp [linPairs]
  | x :: y :: t, h => by
    rw [List.chain'_cons] at h
    rw [linPairs_cons_cons, List.countP_cons]
    by_cases hxy : upP (x, y) = true
    · have hy : (0 : ℚ) < y := by
        have := of_decide_eq_true hxy
        exact this.2
      have hpos : ∀ z ∈ y :: t, 0 < z := fun z hz =>
        lt_of_lt_of_le hy (inc_head_le y t h.2 z hz)
      rw [ups_zero_of_all_pos (y :: t) hpos, hxy]
      norm_num
    · have h0 : upP (x, y) = false := by
        cases hb : upP (x, y)
        · rfl
        · exact absurd hb hxy
      rw [h0]
      simpa using ups_le_one_of_inc (y :: t) h.2

theorem downs_le_one_of_dec : ∀ (l : List ℚ), List.Chain' (· ≥ ·) l →
    List.countP downP (linPairs l) ≤ 1
  | [], _ => by simp [linPairs]
  | [x], _ => by simp [linPairs]
  | x :: y :: t, h => by
    rw [List.chain'_cons] at h
    rw [linPairs_cons_cons, List.countP_cons]
    by_cases hxy : downP (x, y) = true
    · have hy : y < (0 : ℚ) := by
        have := of_decide_eq_true hxy
        exact this.2
      have hneg : ∀ z ∈ y :: t, z < 0 := fun z hz =>
        lt_of_le_of_lt (dec_le_head y t h.2 z hz) hy
      rw [downs_zero_of_all_neg (y :: t) hneg, hxy]
      norm_num
    · have h0 : downP (x, y) = false := by
        cases hb : downP (x, y)
        · rfl
        · exact absurd hb hxy
      rw [h0]
      simpa using downs_le_one_of_dec (y :: t) h.2

theorem countP_crosses_eq (m : List (ℚ × ℚ)) :
    List.countP crossesB m = List.countP upP m + List.countP downP m := by
  induction m with
  | nil => rfl
  | cons q M ih =>
    rw [List.countP_cons, List.countP_cons, List.countP_cons, ih]
    by_cases h1 : (0 ≤ q.1 ∧ q.2 < 0)
    · have h2 : ¬(q.1 ≤ 0 ∧ 0 < q.2) := by
        rintro ⟨-, hb⟩
        exact absurd h1.2 (not_lt.mpr hb.le)
      simp only [crossesB, upP, downP, h1, h2]
      norm_num
      omega
    · by_cases h2 : (q.1 ≤ 0 ∧ 0 < q.2)
      · simp only [crossesB, upP, downP, h1, h2]
        norm_num
        omega
      · simp only [crossesB, upP, downP, h1, h2]
        norm_num

theorem lastD_concat (t : List ℚ) (x d : ℚ) : lastD (t ++ [x]) d = x := by
  induction t generalizing d with
  | nil => rfl
  | cons c t' ih =>
    cases t' with
    | nil => rfl
    | cons e t'' => exact ih d

theorem countP_cyclicPairs_rotate_one (p : ℚ × ℚ → Bool) (l : List ℚ) :
    List.countP p (cyclicPairs (l.rotate 1)) = List.countP p (cyclicPairs l) := by
  cases l with
  | nil => rfl
  | cons x xs =>
    cases xs with
    | nil => rw [List.rotate_singleton]
    | cons y t =>
      have hrot : (x :: y :: t).rotate 1 = (y :: t) ++ [x] := by
        rw [List.rotate_cons_succ, List.rotate_zero]
      rw [hrot]
      have h1 : cyclicPairs ((y :: t) ++ [x]) =
          linPairs ((y :: (t ++ [x])) ++ [y]) := rfl
      have h2 : cyclicPairs (x :: y :: t) =
          (x, y) :: linPairs (y :: (t ++ [x])) := rfl
      rw [h1, h2]
      rw [show (y :: (t ++ [x])) ++ [y] = (y :: (t ++ [x])) ++ ([y] : List ℚ) from rfl]
      rw [linPairs_append y y (t ++ [x]) []]
      have h3 : lastD (y :: (t ++ [x])) 0 = x := by
        rw [show y :: (t ++ [x]) = (y :: t) ++ [x] from rfl]
        exact lastD_concat (y :: t) x 0
      rw [h3]
      rw [List.countP_append, List.countP_cons, List.countP_cons]
      have h4 : linPairs ([y] : List ℚ) = [] := rfl
      rw [h4]
      simp only [List.countP_nil]
      omega

theorem countP_cyclicPairs_rotate (p : ℚ × ℚ → Bool) (l : List ℚ) :
    ∀ k : ℕ, List.countP p (cyclicPairs (l.rotate k)) = List.countP p (cyclicPairs l)
  | 0 => by rw [List.rotate_zero]
  | k + 1 => by
    have h1 : l.rotate (k + 1) = (l.rotate k).rotate 1 := by
      rw [List.rotate_rotate]
    rw [h1, countP_cyclicPairs_rotate_one p (l.rotate k),
      countP_cyclicPairs_rotate p l k]

theorem bool_eq_false_of_not {x : Bool} (h : ¬ x = true) : x = false := by
  cases hb : x
  · rfl
  · exact absurd hb h

/-- Around a cycle that rises and then falls, at most one edge crosses the
zero level upward and at most one downward. -/
theorem cross_le_two_of_updown (l : List ℚ) (h : UpDown l) :
    List.countP crossesB (cyclicPairs l) ≤ 2 := by
  obtain ⟨l₁, l₂, rfl, hinc, hdec⟩ := h
  rcases l₁ with _ | ⟨a, A⟩
  · rcases l₂ with _ | ⟨b, B⟩
    · simp [cyclicPairs]
    · -- pure weakly-decreasing cycle
      have hsplit : cyclicPairs (([] : List ℚ) ++ b :: B) =
          linPairs (b :: B) ++ [(lastD (b :: B) 0, b)] := by
        have h2 : cyclicPairs (([] : List ℚ) ++ b :: B) =
            linPairs ((b :: B) ++ ([b] : List ℚ)) := rfl
        rw [h2, linPairs_append b b B []]
        rfl
      rw [hsplit, countP_crosses_eq]
      have hU2 : List.countP upP (linPairs (b :: B)) = 0 := ups_zero_of_dec _ hdec
      have hdown : List.countP downP (linPairs (b :: B) ++ [(lastD (b :: B) 0, b)]) ≤ 1 := by
        by_cases hw : downP (lastD (b :: B) 0, b) = true
        · have hLb : 0 ≤ lastD (b :: B) 0 := (of_decide_eq_true hw).1
          have hD2 : List.countP downP (linPairs (b :: B)) = 0 :=
            downs_zero_of_all_nonneg _ (fun z hz => le_trans hLb (dec_last_le b B hdec z hz))
          simp [List.countP_append, List.countP_cons, hD2, hw]
        · have hw0 := bool_eq_false_of_not hw
          have := downs_le_one_of_dec (b :: B) hdec
          simp only [List.countP_append, List.countP_cons, List.countP_nil, hw0]
          simpa using this
      have hup : List.countP upP (linPairs (b :: B) ++ [(lastD (b :: B) 0, b)]) ≤ 1 := by
        simp only [List.countP_append, List.countP_cons, List.countP_nil, hU2]
        by_cases hw : upP (lastD (b :: B) 0, b) = true
        · simp [hw]
        · simp [bool_eq_false_of_not hw]
      omega
  · rcases l₂ with _ | ⟨b, B⟩
    · -- pure weakly-increasing cycle
      rw [List.append_nil]
      have hsplit : cyclicPairs (a :: A) =
          linPairs (a :: A) ++ [(lastD (a :: A) 0, a)] := by
        have h2 : cyclicPairs (a :: A) = linPairs ((a :: A) ++ ([a] : List ℚ)) := rfl
        rw [h2, linPairs_append a a A []]
        rfl
      rw [hsplit, countP_crosses_eq]
      have hD1 : List.countP downP (linPairs (a :: A)) = 0 := downs_zero_of_inc _ hinc
      have hup : List.countP upP (linPairs (a :: A) ++ [(lastD (a :: A) 0, a)]) ≤ 1 := by
        by_cases hw : upP (lastD (a :: A) 0, a) = true
        · have ha : (0 : ℚ) < a := (of_decide_eq_true hw).2
          have hU1 : List.countP upP (linPairs (a :: A)) = 0 :=
            ups_zero_of_all_pos _ (fun z hz => lt_of_lt_of_le ha (inc_head_le a A hinc z hz))
          simp [List.countP_append, List.countP_cons, hU1, hw]
        · have := ups_le_one_of_inc (a :: A) hinc
          simp only [List.countP_append, List.countP_cons, List.countP_nil,
            bool_eq_false_of_not hw]
          simpa using this
      have hdown : List.countP downP (linPairs (a :: A) ++ [(lastD (a :: A) 0, a)]) ≤ 1 := by
        simp only [List.countP_append, List.countP_cons, List.countP_nil, hD1]
        by_cases hw : downP (lastD (a :: A) 0, a) = true
        · simp [hw]
        · simp [bool_eq_false_of_not hw]
      omega
    · -- both arcs nonempty
      have hsplit : cyclicPairs ((a :: A) ++ b :: B) =
          linPairs (a :: A) ++ (lastD (a :: A) 0, b) ::
            (linPairs (b :: B) ++ [(lastD (b :: B) 0, a)]) := by
        have h2 : cyclicPairs ((a :: A) ++ b :: B) =
            linPairs ((a :: (A ++ b :: B)) ++ [a]) := rfl
        rw [h2]
        have h3 : (a :: (A ++ b :: B)) ++ [a] = (a :: A) ++ (b :: (B ++ [a])) := by
          simp [List.cons_append, List.append_assoc]
        rw [h3, linPairs_append a b A (B ++ [a])]
        have h4 : linPairs (b :: (B ++ [a])) = linPairs ((b :: B) ++ ([a] : List ℚ)) := rfl
        rw [h4, linPairs_append b a B []]
        rfl
      rw [hsplit, countP_crosses_eq]
      have hU2 : List.countP upP (linPairs (b :: B)) = 0 := ups_zero_of_dec _ hdec
      have hD1 : List.countP downP (linPairs (a :: A)) = 0 := downs_zero_of_inc _ hinc
      have hup : List.countP upP (linPairs (a :: A) ++ (lastD (a :: A) 0, b) ::
          (linPairs (b :: B) ++ [(lastD (b :: B) 0, a)])) ≤ 1 := by
        by_cases hw : upP (lastD (b :: B) 0, a) = true
        · have ha : (0 : ℚ) < a := (of_decide_eq_true hw).2
          have hU1 : List.countP upP (linPairs (a :: A)) = 0 :=
            ups_zero_of_all_pos _ (fun z hz => lt_of_lt_of_le ha (inc_head_le a A hinc z hz))
          have hLa : (0 : ℚ) < lastD (a :: A) 0 :=
            lt_of_lt_of_le ha (inc_head_le a A hinc _ (lastD_cons_mem a A 0))
          have hj : upP (lastD (a :: A) 0, b) = false := by
            simp only [upP, decide_eq_false_iff_not, not_and]
            intro h' _
            exact absurd hLa (not_lt.mpr h')
          simp [List.countP_append, List.countP_cons, hU1, hU2, hj, hw]
        · have hw0 := bool_eq_false_of_not hw
          by_cases hj : upP (lastD (a :: A) 0, b) = true
          · have hLa : lastD (a :: A) 0 ≤ 0 := (of_decide_eq_true hj).1
            have hU1 : List.countP upP (linPairs (a :: A)) = 0 :=
              ups_zero_of_all_nonpos _ (fun z hz => le_trans (inc_le_last a A hinc z hz) hLa)
            simp [List.countP_append, List.countP_cons, hU1, hU2, hj, hw0]
          · have hj0 := bool_eq_false_of_not hj
            have := ups_le_one_of_inc (a :: A) hinc
            simp only [List.countP_append, List.countP_cons, List.countP_nil, hU2, hj0, hw0]
            simpa using this
      have hdown : List.countP downP (linPairs (a :: A) ++ (lastD (a :: A) 0, b) ::
          (linPairs (b :: B) ++ [(lastD (b :: B) 0, a)])) ≤ 1 := by
        by_cases hw : downP (lastD (b :: B) 0, a) = true
        · have hLb : 0 ≤ lastD (b :: B) 0 := (of_decide_eq_true hw).1
          have hD2 : List.countP downP (linPairs (b :: B)) = 0 :=
            downs_zero_of_all_nonneg _ (fun z hz => le_trans hLb (dec_last_le b B hdec z hz))
          have hb0 : (0 : ℚ) ≤ b :=
            le_trans hLb (dec_last_le b B hdec b (List.mem_cons_self b B))
          have hj : downP (lastD (a :: A) 0, b) = false := by
            simp only [downP, decide_eq_false_iff_not, not_and]
            intro _
            exact not_lt.mpr hb0
          simp [List.countP_append, List.countP_cons, hD1, hD2, hj, hw]
        · have hw0 := bool_eq_false_of_not hw
          by_cases hj : downP (lastD (a :: A) 0, b) = true
          · have hb : b < 0 := (of_decide_eq_true hj).2
            have hD2 : List.countP downP (linPairs (b :: B)) = 0 :=
              downs_zero_of_all_neg _ (fun z hz => lt_of_le_of_lt (dec_le_head b B hdec z hz) hb)
            simp [List.countP_append, List.countP_cons, hD1, hD2, hj, hw0]
          · have hj0 := bool_eq_false_of_not hj
            have := downs_le_one_of_dec (b :: B) hdec
            simp only [List.countP_append, List.countP_cons, List.countP_nil, hD1, hj0, hw0]
            simpa using this
      omega

/-- Around any unimodal (cyclically bitonic) value cycle at most two
consecutive pairs cross the zero level. -/
theorem cross_le_two_of_cyclicBitonic (l : List ℚ) (h : CyclicBitonic l) :
    List.countP crossesB (cyclicPairs l) ≤ 2 := by
  obtain ⟨k, hk⟩ := h
  have := cross_le_two_of_updown _ hk
  rwa [countP_cyclicPairs_rotate crossesB l k] at this

theorem cross_iff (a b : ℚ) :
    (a - b ≠ 0 ∧ 0 ≤ a * (a - b) ∧ a * (a - b) < (a - b) * (a - b)) ↔
      ((0 ≤ a ∧ b < 0) ∨ (a ≤ 0 ∧ 0 < b)) := by
  constructor
  · rintro ⟨hne, h1, h2⟩
    rcases hne.lt_or_lt with hd | hd
    · right
      constructor
      · nlinarith
      · nlinarith
    · left
      constructor
      · nlinarith
      · nlinarith
  · rintro (⟨ha, hb⟩ | ⟨ha, hb⟩)
    · have hd : 0 < a - b := by linarith
      refine ⟨by linarith, by nlinarith, by nlinarith⟩
    · have hd : a - b < 0 := by linarith
      refine ⟨by linarith, by nlinarith, by nlinarith⟩

/-- The loop accepts an edge exactly when the signed-side functional of the
line makes a half-open sign crossing from the edge start to the edge end. -/
theorem edgeAccepts_eq_crossesB (L : Line) (se : Vec2 × Vec2) :
    edgeAccepts L se = crossesB (sigmaL L se.1, sigmaL L se.2) := by
  apply decide_eq_decide.mpr
  have hN : L.direction.x * (se.1.y - L.origin.y) -
      L.direction.y * (se.1.x - L.origin.x) = sigmaL L se.1 := rfl
  have hdet : (se.2.x - se.1.x) * L.direction.y -
      (se.2.y - se.1.y) * L.direction.x = sigmaL L se.1 - sigmaL L se.2 := by
    simp only [sigmaL]
    ring
  rw [hdet, hN]
  exact cross_iff (sigmaL L se.1) (sigmaL L se.2)

theorem zip_append_single {γ δ : Type} (C : List γ) (c : γ) (B : List δ)
    (h : B.length ≤ C.length) : (C ++ [c]).zip B = C.zip B := by
  induction C generalizing B with
  | nil =>
    have : B = [] := List.eq_nil_of_length_eq_zero (Nat.le_zero.mp h)
    subst this
    rfl
  | cons u C' ih =>
    cases B with
    | nil => rfl
    | cons v B' =>
      have hlen : B'.length ≤ C'.length := by
        simpa using h
      show (u, v) :: (C' ++ [c]).zip B' = (u, v) :: C'.zip B'
      rw [ih B' hlen]

theorem cyclicPairs_eq_zip_rotate (l : List ℚ) :
    cyclicPairs l = l.zip (l.rotate 1) := by
  cases l with
  | nil => rfl
  | cons x xs =>
    have hrot : (x :: xs).rotate 1 = xs ++ [x] := by
      rw [List.rotate_cons_succ, List.rotate_zero]
    rw [hrot]
    have h1 : cyclicPairs (x :: xs) = ((x :: xs) ++ [x]).zip (xs ++ [x]) := rfl
    rw [h1]
    exact zip_append_single (x :: xs) x (xs ++ [x]) (by simp)

/-- The edge list of a polygon is the cyclic consecutive-pair list of its
vertices. -/
theorem edges_eq_zip_rotate (P : Polygon) :
    P.edges = P.vertices.zip (P.vertices.rotate 1) := by
  apply List.ext_getElem
  · simp [Polygon.edges, List.length_zip, List.length_rotate]
  · intro i h1 h2
    have hn : i < P.vertices.length := by
      simpa [Polygon.edges] using h1
    have hmod : i % P.vertices.length = i := Nat.mod_eq_of_lt hn
    rw [List.getElem_zip, List.getElem_rotate]
    simp only [Polygon.edges, List.getElem_map, List.getElem_range]
    rw [hmod, List.getD_eq_getElem P.vertices ⟨0, 0⟩ hn,
      List.getD_eq_getElem P.vertices ⟨0, 0⟩ (Nat.mod_lt _ (by omega))]

theorem edges_map_pair (P : Polygon) (f : Vec2 → ℚ) :
    P.edges.map (fun se => (f se.1, f se.2)) = cyclicPairs (P.vertices.map f) := by
  rw [edges_eq_zip_rotate, cyclicPairs_eq_zip_rotate]
  rw [show (P.vertices.map f).rotate 1 = (P.vertices.rotate 1).map f from
    (List.map_rotate f P.vertices 1).symm]
  rw [List.zip_map]
  rfl

/-- Any quadrilateral value cycle of the rectangle shape
`v, v+α, v+α+β, v+β` is unimodal. -/
theorem quad_cyclicBitonic (p α β : ℚ) :
    CyclicBitonic [p, p + α, p + α + β, p + β] := by
  rcases le_or_lt 0 α with hα | hα <;> rcases le_or_lt 0 β with hβ | hβ
  · refine ⟨0, [p, p + α, p + α + β], [p + β], ?_, ?_, ?_⟩
    · rw [List.rotate_zero]
      rfl
    · simp only [List.chain'_cons, List.chain'_singleton, and_true]
      constructor <;> linarith
    · simp
  · refine ⟨3, [p + β, p, p + α], [p + α + β], ?_, ?_, ?_⟩
    · show List.rotate [p, p + α, p + α + β, p + β] 3 = _
      rfl
    · simp only [List.chain'_cons, List.chain'_singleton, and_true]
      constructor <;> linarith
    · simp
  · refine ⟨1, [p + α, p + α + β], [p + β, p], ?_, ?_, ?_⟩
    · show List.rotate [p, p + α, p + α + β, p + β] 1 = _
      rfl
    · simp only [List.chain'_cons, List.chain'_singleton, and_true]
      linarith
    · simp only [List.chain'_cons, List.chain'_singleton, and_true]
      linarith
  · refine ⟨2, [p + α + β, p + β, p], [p + α], ?_, ?_, ?_⟩
    · show List.rotate [p, p + α, p + α + β, p + β] 2 = _
      rfl
    · simp only [List.chain'_cons, List.chain'_singleton, and_true]
      constructor <;> linarith
    · simp

/-- Every rectangle polygon is a convex vertex cycle. -/
theorem rectangle_convexCyclic (r : Rectangle) : ConvexCyclic r.toPolygon := by
  intro c₀ c₁ c₂
  have hmap : r.toPolygon.vertices.map (fun v => c₀ + c₁ * v.x + c₂ * v.y) =
      [c₀ + c₁ * r.minX + c₂ * r.minY,
       c₀ + c₁ * r.minX + c₂ * r.minY + c₁ * (r.maxX - r.minX),
       c₀ + c₁ * r.minX + c₂ * r.minY + c₁ * (r.maxX - r.minX) + c₂ * (r.maxY - r.minY),
       c₀ + c₁ * r.minX + c₂ * r.minY + c₂ * (r.maxY - r.minY)] := by
    simp only [Rectangle.toPolygon, List.map_cons, List.map_nil, List.cons.injEq,
      and_true]
    refine ⟨trivial, ?_, ?_, ?_⟩ <;> ring
  rw [hmap]
  exact quad_cyclicBitonic (c₀ + c₁ * r.minX + c₂ * r.minY)
    (c₁ * (r.maxX - r.minX)) (c₂ * (r.maxY - r.minY))

/-- Claim C3 (amended): for every convex polygon — every vertex cycle along
which each affine functional is unimodal, e.g. a viewport rectangle via
`toPolygon` (`rectangle_convexCyclic`) — and every infinite `Line`, whenever
`intersectLine` returns without throwing it returns at most 2 points: the
half-open `t ∈ [0,1)` acceptance attributes each vertex shared by two
consecutive edges to at most one edge; but exactly 0 or 2 is not
guaranteed — a single point occurs in degenerate positions
(`rect_line_single_point`). -/
theorem convex_intersectLine_le_two (P : Polygon) (L : Line) (pts : List Vec2)
    (hconv : ConvexCyclic P) (h : P.intersectLine L = some pts) :
    pts.length ≤ 2 := by
  rw [Polygon.intersectLine] at h
  cases hsc : intersectScalars L P.edges with
  | none =>
    rw [hsc] at h
    simp at h
  | some l =>
    rw [hsc, Option.map_some'] at h
    injection h with h
    subst h
    rw [List.length_map, length_jsSort, intersectScalars_some L P.edges l hsc]
    rw [← List.countP_eq_length_filter]
    have hcongr : List.countP (edgeAccepts L) P.edges =
        List.countP (fun se : Vec2 × Vec2 => crossesB (sigmaL L se.1, sigmaL L se.2))
          P.edges :=
      List.countP_congr fun se _ => by rw [edgeAccepts_eq_crossesB L se]
    rw [hcongr]
    have hmapped : List.countP
        (fun se : Vec2 × Vec2 => crossesB (sigmaL L se.1, sigmaL L se.2)) P.edges =
        List.countP crossesB
          (P.edges.map fun se => (sigmaL L se.1, sigmaL L se.2)) := by
      rw [List.countP_map]
      rfl
    rw [hmapped, edges_map_pair P (sigmaL L)]
    have hbit := hconv (L.direction.y * L.origin.x - L.direction.x * L.origin.y)
      (-L.direction.y) L.direction.x
    have hfun : (fun v : Vec2 =>
        L.direction.y * L.origin.x - L.direction.x * L.origin.y +
          -L.direction.y * v.x + L.direction.x * v.y) = sigmaL L := by
      funext v
      simp only [sigmaL]
      ring
    rw [hfun] at hbit
    exact cross_le_two_of_cyclicBitonic _ hbit

/-- Claim C3 as stated is false: the unit-square viewport polygon
`Rectangle(0,0,1,1).toPolygon()` intersected with the line through `(0,0)`
with unit direction `(1,0)` (collinear with the bottom edge) returns exactly
ONE point, `(1,0)`: the bottom and top edges are skipped as parallel, the
right edge accepts the corner `(1,0)` at `t = 0`, and the left edge rejects
the corner `(0,0)` at `t = 1` — so the result is neither 0 nor 2 points. -/
theorem rect_line_single_point :
    (Rectangle.make 0 0 1 1).toPolygon.intersectLine ⟨⟨0, 0⟩, ⟨1, 0⟩⟩ = some [⟨1, 0⟩] ∧
      ¬([(⟨1, 0⟩ : Vec2)].length = 0 ∨ [(⟨1, 0⟩ : Vec2)].length = 2) := by
  constructor
  · have hmk : Rectangle.make 0 0 1 1 = Rectangle.mk 0 0 1 1 := by
      norm_num [Rectangle.make, min_def, max_def]
    rw [hmk]
    have hpoly : (Rectangle.mk (0 : ℚ) 0 1 1).toPolygon =
        Polygon.mk [⟨0, 0⟩, ⟨1, 0⟩, ⟨1, 1⟩, ⟨0, 1⟩] := rfl
    rw [hpoly]
    have hedges : (Polygon.mk [(⟨0, 0⟩ : Vec2), ⟨1, 0⟩, ⟨1, 1⟩, ⟨0, 1⟩]).edges =
        [((⟨0, 0⟩ : Vec2), (⟨1, 0⟩ : Vec2)), (⟨1, 0⟩, ⟨1, 1⟩),
          (⟨1, 1⟩, ⟨0, 1⟩), (⟨0, 1⟩, ⟨0, 0⟩)] := rfl
    rw [Polygon.intersectLine, hedges]
    have hscal : intersectScalars ⟨⟨0, 0⟩, ⟨1, 0⟩⟩
        [((⟨0, 0⟩ : Vec2), (⟨1, 0⟩ : Vec2)), (⟨1, 0⟩, ⟨1, 1⟩),
          (⟨1, 1⟩, ⟨0, 1⟩), (⟨0, 1⟩, ⟨0, 0⟩)] = some [1] := by
      norm_num [intersectScalars, Matrix2.fromColumns, Matrix2.determinant, Matrix2.inverse,
        Matrix2.scale, Matrix2.apply, Vec2.subtract, Vec2.negative, jsAbs, EPSILON]
    rw [hscal, Option.map_some']
    have hsort : jsSort [1] = [1] := rfl
    rw [hsort]
    norm_num [Vec2.add, Vec2.scale]
  · simp

/-- Witness for amended C3: the unit-square viewport polygon is a convex
vertex cycle, and cut by the horizontal line through `(0, 1/2)` it yields
two points, within the proved bound. -/
theorem convex_intersectLine_le_two_witness :
    ConvexCyclic (Rectangle.make 0 0 1 1).toPolygon ∧
      (Rectangle.make 0 0 1 1).toPolygon.intersectLine ⟨⟨0, 1/2⟩, ⟨1, 0⟩⟩ =
        some [⟨0, 1/2⟩, ⟨1, 1/2⟩] ∧
      [(⟨0, 1/2⟩ : Vec2), ⟨1, 1/2⟩].length ≤ 2 := by
  have heval : (Rectangle.make 0 0 1 1).toPolygon.intersectLine ⟨⟨0, 1/2⟩, ⟨1, 0⟩⟩ =
      some [⟨0, 1/2⟩, ⟨1, 1/2⟩] := by
    have hmk : Rectangle.make 0 0 1 1 = Rectangle.mk 0 0 1 1 := by
      norm_num [Rectangle.make, min_def, max_def]
    rw [hmk]
    have hpoly : (Rectangle.mk (0 : ℚ) 0 1 1).toPolygon =
        Polygon.mk [⟨0, 0⟩, ⟨1, 0⟩, ⟨1, 1⟩, ⟨0, 1⟩] := rfl
    rw [hpoly]
    have hedges : (Polygon.mk [(⟨0, 0⟩ : Vec2), ⟨1, 0⟩, ⟨1, 1⟩, ⟨0, 1⟩]).edges =
        [((⟨0, 0⟩ : Vec2), (⟨1, 0⟩ : Vec2)), (⟨1, 0⟩, ⟨1, 1⟩),
          (⟨1, 1⟩, ⟨0, 1⟩), (⟨0, 1⟩, ⟨0, 0⟩)] := rfl
    rw [Polygon.intersectLine, hedges]
    have hscal : intersectScalars ⟨⟨0, 1/2⟩, ⟨1, 0⟩⟩
        [((⟨0, 0⟩ : Vec2), (⟨1, 0⟩ : Vec2)), (⟨1, 0⟩, ⟨1, 1⟩),
          (⟨1, 1⟩, ⟨0, 1⟩), (⟨0, 1⟩, ⟨0, 0⟩)] = some [1, 0] := by
      norm_num [intersectScalars, Matrix2.fromColumns, Matrix2.determinant, Matrix2.inverse,
        Matrix2.scale, Matrix2.apply, Vec2.subtract, Vec2.negative, jsAbs, EPSILON]
    rw [hscal, Option.map_some']
    have hsort : jsSort [1, 0] = [0, 1] := by
      norm_num [jsSort, insertSorted, jsLe, jsNumRepr, natDigits, natDecToList, lexLt]
    rw [hsort]
    norm_num [Vec2.add, Vec2.scale]
  exact ⟨rectangle_convexCyclic (Rectangle.make 0 0 1 1), heval,
    convex_intersectLine_le_two (Rectangle.make 0 0 1 1).toPolygon ⟨⟨0, 1/2⟩, ⟨1, 0⟩⟩
      [⟨0, 1/2⟩, ⟨1, 1/2⟩] (rectangle_convexCyclic (Rectangle.make 0 0 1 1)) heval⟩

end Plotter
